import Mathlib

/-!
Verification development for the Crimo_MOrpher pixel-transform pipeline.

The Python source (`morph_engine.py`, `bg_replacer.py`) is shallowly embedded:
images are total functions from pixel coordinates to sample values, float
arithmetic is modelled exactly over `ℚ` (where the code is purely rational)
or `ℝ` (where square roots / real powers occur), and external OpenCV
routines whose output the claims do not depend on pointwise (GrabCut, Canny,
Gaussian blur, bilateral filter, text rasterisation) are taken as explicit
oracle parameters, so every theorem quantifies over all behaviours of those
library calls.
-/

/-- Python `int(...)` applied to a rational float value: truncation toward
zero. -/
def truncQ (q : ℚ) : ℤ :=
  if 0 ≤ q then ⌊q⌋ else -⌊-q⌋

/-- Python `int(...)` applied to a real float value: truncation toward
zero. -/
noncomputable def truncR (r : ℝ) : ℤ :=
  if 0 ≤ r then ⌊r⌋ else -⌊-r⌋

/-- `np.clip(v, lo, hi)` for rationals. -/
def clipQ (lo hi v : ℚ) : ℚ :=
  max lo (min hi v)

/-- OpenCV `BORDER_REFLECT` index folding: out-of-range indices are mirrored
back into `[0, n)` (pattern `fedcba|abcdefgh|hgfedcb`, period `2n`). -/
def reflectIdx (n : ℕ) (i : ℤ) : ℕ :=
  if n = 0 then 0
  else
    let j := i % (2 * (n : ℤ))
    if j < n then j.toNat else (2 * (n : ℤ) - 1 - j).toNat

/-- `cv2.remap(..., INTER_LINEAR, borderMode=BORDER_REFLECT)` sampling of one
destination pixel: bilinear interpolation of the four integer neighbours of
the source coordinate, with reflected out-of-range reads. -/
noncomputable def bilinearReflect (h w : ℕ) (img : ℕ → ℕ → ℝ) (src : ℝ × ℝ) : ℝ :=
  let x0 : ℤ := ⌊src.1⌋
  let y0 : ℤ := ⌊src.2⌋
  let fx : ℝ := src.1 - x0
  let fy : ℝ := src.2 - y0
  let p : ℤ → ℤ → ℝ := fun j i => img (reflectIdx h j) (reflectIdx w i)
  (1 - fy) * ((1 - fx) * p y0 x0 + fx * p y0 (x0 + 1)) +
    fy * ((1 - fx) * p (y0 + 1) x0 + fx * p (y0 + 1) (x0 + 1))

/-- A 68-point landmark set (`numpy array of shape (68, 2)` with integer
pixel coordinates, column order `(x, y)`). -/
abbrev Landmarks := Fin 68 → ℤ × ℤ

/-- `pts.mean(axis=0).astype(int)`: arithmetic mean of a point subset,
truncated to integer pixel coordinates. -/
def meanPt (n : ℕ) (pts : Fin n → ℤ × ℤ) : ℤ × ℤ :=
  (truncQ (((∑ i, (pts i).1 : ℤ) : ℚ) / n), truncQ (((∑ i, (pts i).2 : ℤ) : ℚ) / n))

/-- `landmarks.mean(axis=0).astype(int)` in `_bulge` / `_squeeze`. -/
def faceCenter (lm : Landmarks) : ℤ × ℤ :=
  meanPt 68 lm

/-- The jaw subset `landmarks[:17]`. -/
def jawPts (lm : Landmarks) (i : Fin 17) : ℤ × ℤ :=
  lm ⟨i.val, by omega⟩

/-- `np.max(np.linalg.norm(jaw - face_center, axis=1))`: the maximum
Euclidean distance from the (truncated) face center to a jaw landmark. -/
noncomputable def jawMaxDist (lm : Landmarks) : ℝ :=
  (Finset.univ : Finset (Fin 17)).sup' Finset.univ_nonempty fun i =>
    Real.sqrt ((((jawPts lm i).1 : ℝ) - (((faceCenter lm).1 : ℤ) : ℝ)) ^ 2 +
      (((jawPts lm i).2 : ℝ) - (((faceCenter lm).2 : ℤ) : ℝ)) ^ 2)

/-- `int(np.max(np.linalg.norm(jaw - face_center, axis=1)) * 1.1)`: the face
radius used by `_bulge` and `_squeeze`. -/
noncomputable def faceRadius (lm : Landmarks) : ℤ :=
  truncR (jawMaxDist lm * 1.1)

/-- The source coordinate `(map_x[y,x], map_y[y,x])` built by
`MorphEngine._bulge`: inside the face radius the radial power law
`new_dist = norm_dist ** (1 + strength*0.5)` is applied, outside the map is
the identity. -/
noncomputable def bulgeMap (lm : Landmarks) (s : ℝ) (y x : ℕ) : ℝ × ℝ :=
  let c := faceCenter lm
  let R : ℝ := (faceRadius lm : ℤ)
  let dx : ℝ := (x : ℝ) - (c.1 : ℤ)
  let dy : ℝ := (y : ℝ) - (c.2 : ℤ)
  let d : ℝ := Real.sqrt (dx ^ 2 + dy ^ 2)
  if d < R then
    let nd := d / R
    let ndNew := nd ^ ((1 : ℝ) + s * 0.5)
    let scale := if 0 < nd then ndNew / nd else 1
    (((c.1 : ℤ) : ℝ) + dx * scale, ((c.2 : ℤ) : ℝ) + dy * scale)
  else ((x : ℝ), (y : ℝ))

/-- `MorphEngine._bulge`: remap the image through the bulge displacement
field with bilinear interpolation and reflected borders. -/
noncomputable def bulge (h w : ℕ) (img : ℕ → ℕ → ℝ) (lm : Landmarks) (s : ℝ) :
    ℕ → ℕ → ℝ :=
  fun y x => bilinearReflect h w img (bulgeMap lm s y x)

/-- Distance of destination pixel `(x, y)` from the face center. -/
noncomputable def pixDist (lm : Landmarks) (y x : ℕ) : ℝ :=
  let c := faceCenter lm
  Real.sqrt (((x : ℝ) - (c.1 : ℤ)) ^ 2 + ((y : ℝ) - (c.2 : ℤ)) ^ 2)

/-- Distance of the bulge source coordinate of pixel `(x, y)` from the face
center: how far from the center the bilinear sample is taken. -/
noncomputable def bulgeSrcDist (lm : Landmarks) (s : ℝ) (y x : ℕ) : ℝ :=
  let c := faceCenter lm
  let m := bulgeMap lm s y x
  Real.sqrt ((m.1 - (c.1 : ℤ)) ^ 2 + (m.2 - (c.2 : ℤ)) ^ 2)

/-- The source coordinate built by `MorphEngine._squeeze`: inside the face
radius an anisotropic per-pixel scale `sx = 1 + 0.3*strength*falloff`,
`sy = 1 - 0.15*strength*falloff` with `falloff = 1 - norm_dist`; outside,
the identity. -/
noncomputable def squeezeMap (lm : Landmarks) (s : ℝ) (y x : ℕ) : ℝ × ℝ :=
  let c := faceCenter lm
  let R : ℝ := (faceRadius lm : ℤ)
  let dx : ℝ := (x : ℝ) - (c.1 : ℤ)
  let dy : ℝ := (y : ℝ) - (c.2 : ℤ)
  let d : ℝ := Real.sqrt (dx ^ 2 + dy ^ 2)
  if d < R then
    let nd := d / R
    let squeeze := s * 0.3
    let falloff := 1 - nd
    let sx := 1 + squeeze * falloff
    let sy := 1 - squeeze * 0.5 * falloff
    (((c.1 : ℤ) : ℝ) + dx * sx, ((c.2 : ℤ) : ℝ) + dy * sy)
  else ((x : ℝ), (y : ℝ))

/-- `MorphEngine._squeeze`: remap through the squeeze displacement field. -/
noncomputable def squeeze (h w : ℕ) (img : ℕ → ℕ → ℝ) (lm : Landmarks) (s : ℝ) :
    ℕ → ℕ → ℝ :=
  fun y x => bilinearReflect h w img (squeezeMap lm s y x)

/-- Right-eye landmark subset `landmarks[36:42]`. -/
def rightEyePts (lm : Landmarks) (i : Fin 6) : ℤ × ℤ :=
  lm ⟨36 + i.val, by omega⟩

/-- Left-eye landmark subset `landmarks[42:48]`. -/
def leftEyePts (lm : Landmarks) (i : Fin 6) : ℤ × ℤ :=
  lm ⟨42 + i.val, by omega⟩

/-- Mouth landmark subset `landmarks[48:68]`. -/
def mouthPts (lm : Landmarks) (i : Fin 20) : ℤ × ℤ :=
  lm ⟨48 + i.val, by omega⟩

/-- `np.max(pts[:, 0]) - np.min(pts[:, 0])`: the x-extent of a point
subset. -/
def spreadX (n : ℕ) [NeZero n] (pts : Fin n → ℤ × ℤ) : ℤ :=
  ((Finset.univ : Finset (Fin n)).sup' Finset.univ_nonempty fun i => (pts i).1) -
    ((Finset.univ : Finset (Fin n)).inf' Finset.univ_nonempty fun i => (pts i).1)

/-- `np.max(pts[:, 1]) - np.min(pts[:, 1])`: the y-extent of a point
subset. -/
def spreadY (n : ℕ) [NeZero n] (pts : Fin n → ℤ × ℤ) : ℤ :=
  ((Finset.univ : Finset (Fin n)).sup' Finset.univ_nonempty fun i => (pts i).2) -
    ((Finset.univ : Finset (Fin n)).inf' Finset.univ_nonempty fun i => (pts i).2)

/-- `int(max(eye_w, eye_h) * 1.5)` in `_big_eyes`. -/
def eyeRadiusOf (pts : Fin 6 → ℤ × ℤ) : ℤ :=
  truncQ ((max (spreadX 6 pts) (spreadY 6 pts) : ℤ) * (3 / 2 : ℚ))

/-- `int(max(mouth_w, mouth_h) * 1.8)` in `_wide_smile`. -/
def mouthRadiusOf (lm : Landmarks) : ℤ :=
  truncQ ((max (spreadX 20 (mouthPts lm)) (spreadY 20 (mouthPts lm)) : ℤ) * (9 / 5 : ℚ))

/-- The clamped sub-buffer rectangle `(y1, y2, x1, x2)` used by the local
effects: `y1 = max(0, cy - r)`, `y2 = min(h, cy + r)`, similarly in x. -/
def clampRect (h w : ℕ) (cx cy r : ℤ) : ℕ × ℕ × ℕ × ℕ :=
  ((max 0 (cy - r)).toNat, (min (h : ℤ) (cy + r)).toNat,
    (max 0 (cx - r)).toNat, (min (w : ℤ) (cx + r)).toNat)

/-- Membership of destination pixel `(x, y)` in a clamped sub-buffer
rectangle (the region that gets spliced back). -/
def inRectB (rc : ℕ × ℕ × ℕ × ℕ) (y x : ℕ) : Bool :=
  decide (rc.1 ≤ y) && decide (y < rc.2.1) &&
    decide (rc.2.2.1 ≤ x) && decide (x < rc.2.2.2)

/-- The clamped eye region of `_big_eyes` for one eye:
center `eye_pts.mean`, half-size `r = eye_radius + 10`. -/
def eyeRect (h w : ℕ) (pts : Fin 6 → ℤ × ℤ) : ℕ × ℕ × ℕ × ℕ :=
  clampRect h w (meanPt 6 pts).1 (meanPt 6 pts).2 (eyeRadiusOf pts + 10)

/-- The clamped mouth region of `_wide_smile`:
center `mouth.mean`, half-size `r = mouth_radius + 15`. -/
def mouthRect (h w : ℕ) (lm : Landmarks) : ℕ × ℕ × ℕ × ℕ :=
  clampRect h w (meanPt 20 (mouthPts lm)).1 (meanPt 20 (mouthPts lm)).2
    (mouthRadiusOf lm + 15)

/-- One eye pass of `MorphEngine._big_eyes`: if the eye radius is below the
5px floor the pass is skipped (`continue`); otherwise the clamped region
around the eye is extracted, bulged locally with exponent
`1 + strength*0.6`, and spliced back; pixels outside the region come from
the incoming image. -/
noncomputable def applyEyeBulge (h w : ℕ) (img : ℕ → ℕ → ℝ)
    (pts : Fin 6 → ℤ × ℤ) (s : ℝ) : ℕ → ℕ → ℝ :=
  if eyeRadiusOf pts < 5 then img
  else
    let c := meanPt 6 pts
    let rad := eyeRadiusOf pts
    let rc := eyeRect h w pts
    let y1 := rc.1
    let x1 := rc.2.2.1
    let rh := rc.2.1 - y1
    let rw := rc.2.2.2 - x1
    let region : ℕ → ℕ → ℝ := fun ry rx => img (y1 + ry) (x1 + rx)
    let rcx : ℤ := c.1 - x1
    let rcy : ℤ := c.2 - y1
    let warpMap : ℕ → ℕ → ℝ × ℝ := fun ry rx =>
      let dx : ℝ := (rx : ℝ) - rcx
      let dy : ℝ := (ry : ℝ) - rcy
      let d : ℝ := Real.sqrt (dx ^ 2 + dy ^ 2)
      if d < (rad : ℝ) then
        let nd := d / rad
        let ndNew := nd ^ ((1 : ℝ) + s * 0.6)
        let scale := if 0 < nd then ndNew / nd else 1
        ((rcx : ℝ) + dx * scale, (rcy : ℝ) + dy * scale)
      else ((rx : ℝ), (ry : ℝ))
    fun y x =>
      if inRectB rc y x then bilinearReflect rh rw region (warpMap (y - y1) (x - x1))
      else img y x

/-- `MorphEngine._big_eyes`: the right eye (`landmarks[36:42]`) is warped
first, then the left eye (`landmarks[42:48]`) on the result. -/
noncomputable def bigEyes (h w : ℕ) (img : ℕ → ℕ → ℝ) (lm : Landmarks) (s : ℝ) :
    ℕ → ℕ → ℝ :=
  applyEyeBulge h w (applyEyeBulge h w img (rightEyePts lm) s) (leftEyePts lm) s

/-- `MorphEngine._wide_smile`: if the mouth radius is below the 10px floor
the input copy is returned unchanged; otherwise the clamped mouth region is
stretched horizontally (`sx = 1 + 0.3*strength*falloff`) with an upward
curve added to the y-map, and spliced back. -/
noncomputable def wideSmile (h w : ℕ) (img : ℕ → ℕ → ℝ) (lm : Landmarks) (s : ℝ) :
    ℕ → ℕ → ℝ :=
  if mouthRadiusOf lm < 10 then img
  else
    let c := meanPt 20 (mouthPts lm)
    let rad := mouthRadiusOf lm
    let rc := mouthRect h w lm
    let y1 := rc.1
    let x1 := rc.2.2.1
    let rh := rc.2.1 - y1
    let rw := rc.2.2.2 - x1
    let region : ℕ → ℕ → ℝ := fun ry rx => img (y1 + ry) (x1 + rx)
    let rcx : ℤ := c.1 - x1
    let rcy : ℤ := c.2 - y1
    let warpMap : ℕ → ℕ → ℝ × ℝ := fun ry rx =>
      let dx : ℝ := (rx : ℝ) - rcx
      let dy : ℝ := (ry : ℝ) - rcy
      let d : ℝ := Real.sqrt (dx ^ 2 + dy ^ 2)
      if d < (rad : ℝ) then
        let nd := d / rad
        let falloff := 1 - nd
        let stretch := s * 0.3
        let sx := 1 + stretch * falloff
        let curve := s * 5.0
        let curveOffset := -curve * falloff * (dx / rad) ^ 2
        ((rcx : ℝ) + dx * sx, (rcy : ℝ) + dy + curveOffset)
      else ((rx : ℝ), (ry : ℝ))
    fun y x =>
      if inRectB rc y x then bilinearReflect rh rw region (warpMap (y - y1) (x - x1))
      else img y x

/-- External OpenCV image operators used by `MorphEngine._cartoon`, taken as
oracle parameters: the claims settled here do not depend on their pointwise
behaviour. `bilateral d sigmaColor sigmaSpace` is `cv2.bilateralFilter`,
`adaptiveThresh offset` is the mean-adaptive threshold (block size 9) of the
median-blurred grayscale, `andMask` is `cv2.bitwise_and` with the edge
mask. -/
structure CVOracles where
  bilateral : ℕ → ℤ → ℤ → (ℕ → ℕ → ℝ) → (ℕ → ℕ → ℝ)
  toGray : (ℕ → ℕ → ℝ) → (ℕ → ℕ → ℝ)
  medianBlur7 : (ℕ → ℕ → ℝ) → (ℕ → ℕ → ℝ)
  adaptiveThresh : ℤ → (ℕ → ℕ → ℝ) → (ℕ → ℕ → ℝ)
  andMask : (ℕ → ℕ → ℝ) → (ℕ → ℕ → ℝ) → (ℕ → ℕ → ℝ)

/-- `passes = max(1, int(strength * 2))` in `MorphEngine._cartoon`. -/
noncomputable def cartoonPasses (s : ℝ) : ℕ :=
  (max 1 (truncR (s * 2))).toNat

/-- `MorphEngine._cartoon`: `passes` bilateral-smoothing passes (diameter 9,
color/space sigma `int(75*strength)`), combined by bitwise AND with the
adaptive-threshold edge mask (offset `int(2 + strength*3)`) of the
median-blurred grayscale. -/
noncomputable def cartoon (O : CVOracles) (s : ℝ) (img : ℕ → ℕ → ℝ) :
    ℕ → ℕ → ℝ :=
  let passes := cartoonPasses s
  let sigmaColor := truncR (75 * s)
  let sigmaSpace := truncR (75 * s)
  let smooth := (fun im => O.bilateral 9 sigmaColor sigmaSpace im)^[passes] img
  let gray := O.toGray img
  let grayBlur := O.medianBlur7 gray
  let edges := O.adaptiveThresh (truncR (2 + s * 3)) grayBlur
  O.andMask smooth edges

/-- `MorphEngine.apply`: null landmarks short-circuit to an unmodified copy;
otherwise `effect_map.get(effect_name, self._bulge)` dispatches, falling
back to bulge for unknown ids. -/
noncomputable def applyEffect (O : CVOracles) (h w : ℕ) (img : ℕ → ℕ → ℝ)
    (lm : Option Landmarks) (effectName : String) (s : ℝ) : ℕ → ℕ → ℝ :=
  match lm with
  | none => img
  | some l =>
    if effectName = "bulge" then bulge h w img l s
    else if effectName = "cartoon" then cartoon O s img
    else if effectName = "squeeze" then squeeze h w img l s
    else if effectName = "big_eyes" then bigEyes h w img l s
    else if effectName = "wide_smile" then wideSmile h w img l s
    else bulge h w img l s

/-- The estimated full-body rectangle `(left, top, width, height)` of
`BackgroundReplacer._segment_person` step 1: top extends `0.5*fh` above,
bottom `6.5*fh` below, left/right `1.8*fw` each, clamped to image bounds. -/
def bodyRect (h w : ℕ) (bbox : ℤ × ℤ × ℤ × ℤ) : ℤ × ℤ × ℤ × ℤ :=
  let x1 := bbox.1
  let y1 := bbox.2.1
  let x2 := bbox.2.2.1
  let y2 := bbox.2.2.2
  let fw := x2 - x1
  let fh := y2 - y1
  let bodyTop := max 0 (y1 - truncQ ((fh : ℚ) * (1 / 2)))
  let bodyBot := min (h : ℤ) (y2 + truncQ ((fh : ℚ) * (13 / 2)))
  let bodyLeft := max 0 (x1 - truncQ ((fw : ℚ) * (9 / 5)))
  let bodyRight := min (w : ℤ) (x2 + truncQ ((fw : ℚ) * (9 / 5)))
  (bodyLeft, bodyTop, bodyRight - bodyLeft, bodyBot - bodyTop)

/-- 8-neighbourhood adjacency of grid cells (`connectivity=8` in
`cv2.connectedComponentsWithStats`). -/
def adj8 (p q : ℕ × ℕ) : Prop :=
  p ≠ q ∧ ((p.1 : ℤ) - q.1).natAbs ≤ 1 ∧ ((p.2 : ℤ) - q.2).natAbs ≤ 1

instance (p q : ℕ × ℕ) : Decidable (adj8 p q) := by
  unfold adj8; infer_instance

/-- One breadth step of connected-component labelling: the cells of the
foreground `F` that are in `S` or 8-adjacent to a cell of `S`. -/
def grow (F S : Finset (ℕ × ℕ)) : Finset (ℕ × ℕ) :=
  F.filter fun q => q ∈ S ∨ ∃ r ∈ S, adj8 q r

/-- The connected component of cell `p` in foreground `F`: saturate the
breadth step (at most `F.card` steps are needed). -/
def comp (F : Finset (ℕ × ℕ)) (p : ℕ × ℕ) : Finset (ℕ × ℕ) :=
  (grow F)^[F.card] {p}

/-- A foreground set is a single 8-connected blob: labelling started at any
of its cells reaches all of it. -/
def IsConn (P : Finset (ℕ × ℕ)) : Prop :=
  ∀ p ∈ P, comp P p = P

instance (P : Finset (ℕ × ℕ)) : Decidable (IsConn P) := by
  unfold IsConn; infer_instance

/-- `BackgroundReplacer._keep_largest_blob`: label the 8-connected white
regions and keep only the one with maximum pixel area (label 0, the
background, is excluded).  `cv2.connectedComponentsWithStats` leaves the
order of equal-area labels unspecified, so the model keeps every blob of
maximal area; all claims proved about it assume a unique maximum.  An empty
mask (`num_labels <= 1`) is returned unchanged. -/
def keepLargestBlob (F : Finset (ℕ × ℕ)) : Finset (ℕ × ℕ) :=
  F.filter fun p => ∀ q ∈ F, (comp F q).card ≤ (comp F p).card

/-- An alpha mask with its dimensions, as returned by
`BackgroundReplacer._segment_person` (an `(h, w)` float array). -/
structure MaskQ where
  h : ℕ
  w : ℕ
  val : ℕ → ℕ → ℚ

/-- External library calls inside `_segment_person` whose pointwise output
the claims do not constrain, taken as oracles: `binMask` is the binary
person mask after the two GrabCut passes, the Canny edge refinement and the
morphological cleanup (steps 2–5 of the code, all `cv2` calls);
`gaussBlur21` is the 21×21 `cv2.GaussianBlur` used for feathering. -/
structure SegOracles where
  binMask : Finset (ℕ × ℕ)
  gaussBlur21 : (ℕ → ℕ → ℚ) → (ℕ → ℕ → ℚ)

/-- `BackgroundReplacer._segment_person`: if the derived body rectangle
covers fewer than 2px in either dimension, an all-ones mask is returned;
otherwise the pipeline runs, keeps the largest blob, feathers it with a
Gaussian blur, re-sharpens by 1.4 and clips to `[0, 1]`. -/
def segmentPerson (O : SegOracles) (h w : ℕ) (bbox : ℤ × ℤ × ℤ × ℤ) : MaskQ :=
  if (bodyRect h w bbox).2.2.1 < 2 ∨ (bodyRect h w bbox).2.2.2 < 2 then
    ⟨h, w, fun _ _ => 1⟩
  else
    let personBin := keepLargestBlob O.binMask
    let soft := O.gaussBlur21 fun y x => if (y, x) ∈ personBin then 1 else 0
    ⟨h, w, fun y x => clipQ 0 1 (soft y x * (14 / 10))⟩

/-- The per-pixel blend of `BackgroundReplacer.apply`:
`np.clip(image*mask + bg*(1-mask), 0, 255).astype(np.uint8)`
(the `uint8` cast truncates). -/
def compositePre (img bg : ℕ → ℕ → ℤ) (m : ℕ → ℕ → ℚ) : ℕ → ℕ → ℤ :=
  fun y x => ⌊clipQ 0 255 ((img y x : ℚ) * m y x + (bg y x : ℚ) * (1 - m y x))⌋

/-- `np.linspace(0, 1, n)` evaluated at index `i`. -/
def linspace01 (n i : ℕ) : ℚ :=
  if n ≤ 1 then 0 else (i : ℚ) / (n - 1 : ℕ)

/-- The vignette gain of `BackgroundReplacer._add_vignette`:
`np.clip((4*gy*(1-gy)) * (4*gx*(1-gx)) * 1.15, 0, 1)`. -/
def vigGain (h w y x : ℕ) : ℚ :=
  let gy := linspace01 h y
  let gx := linspace01 w x
  clipQ 0 1 ((4 * gy * (1 - gy)) * (4 * gx * (1 - gx)) * (115 / 100))

/-- `BackgroundReplacer._add_vignette`: multiply each sample by the vignette
gain, clip to `[0, 255]` and cast back to `uint8` (truncation). -/
def addVignette (h w : ℕ) (img : ℕ → ℕ → ℤ) : ℕ → ℕ → ℤ :=
  fun y x => ⌊clipQ 0 255 ((img y x : ℚ) * vigGain h w y x)⌋

/-- The compositing tail of `BackgroundReplacer.apply`: blend the subject
over the backdrop through the soft mask, then apply the vignette. -/
def bgComposite (h w : ℕ) (img bg : ℕ → ℕ → ℤ) (m : ℕ → ℕ → ℚ) : ℕ → ℕ → ℤ :=
  addVignette h w (compositePre img bg m)

/-- The mutable fields of `BackgroundReplacer` relevant to the backdrop
cache (`_cached_bg`, `_cached_size`) plus the position in the stream of
`np.random.randint` draws. -/
structure BgState where
  cachedBg : Option (ℕ → ℕ → ℚ)
  cachedSize : Option (ℕ × ℕ)
  seed : ℕ

/-- `BackgroundReplacer._make_mugshot_bg`: a cache hit (same `(w, h)`)
returns a copy of the cached image without touching the RNG; a miss draws a
random case number, renders the backdrop (gradient, ruler, header, footer —
the rendering itself is the oracle `render w h caseNo`) and refills the
cache. -/
def makeMugshotBg (render : ℕ → ℕ → ℕ → (ℕ → ℕ → ℚ)) (rng : ℕ → ℕ)
    (st : BgState) (w h : ℕ) : (ℕ → ℕ → ℚ) × BgState :=
  match st.cachedBg, st.cachedSize with
  | some bg, some sz =>
    if sz = (w, h) then (bg, st)
    else
      let bgN := render w h (rng st.seed)
      (bgN, ⟨some bgN, some (w, h), st.seed + 1⟩)
  | _, _ =>
    let bgN := render w h (rng st.seed)
    (bgN, ⟨some bgN, some (w, h), st.seed + 1⟩)

/-- The all-zero test image. -/
def imgZeroR : ℕ → ℕ → ℝ :=
  fun _ _ => 0

/-- Landmarks forming a perfect circle of radius 50 centered at `(100, 100)`:
17 copies each of the four cardinal points of the circle (mean exactly
`(100, 100)`, every jaw point at distance exactly 50). -/
def circLm : Landmarks := fun i =>
  match i.val % 4 with
  | 0 => (150, 100)
  | 1 => (100, 150)
  | 2 => (50, 100)
  | _ => (100, 50)

/-- A concrete landmark set clustered near `(100, 100)` with tiny eye/mouth
spreads, used to instantiate local-effect theorems. -/
def lmSmall : Landmarks := fun i =>
  (100 + ((i.val % 3 : ℕ) : ℤ), 100 + ((i.val % 2 : ℕ) : ℤ))

/-- A concrete oracle assignment for the cartoon effect: each bilateral pass
adds one to every sample, and the AND with the edge mask returns the
smoothed image, making the number of passes directly observable. -/
def cartOracle : CVOracles :=
  ⟨fun _ _ _ f => fun y x => f y x + 1, id, id, fun _ => id, fun sm _ => sm⟩

/-- A concrete oracle assignment for the segmentation pipeline: empty binary
person mask, identity Gaussian blur. -/
def segOracleZero : SegOracles :=
  ⟨∅, fun f => f⟩

/-- A concrete backdrop renderer making the drawn case number observable:
every pixel of the rendered backdrop equals the case number. -/
def renderCase : ℕ → ℕ → ℕ → (ℕ → ℕ → ℚ) :=
  fun _ _ c => fun _ _ => (c : ℚ)

/-- The initial `BackgroundReplacer` cache state (`_cached_bg = None`,
`_cached_size = None`). -/
def bgStateInit : BgState :=
  ⟨none, none, 0⟩

/-- First backdrop call at size `(1, 1)`. -/
def bgCall1 : (ℕ → ℕ → ℚ) × BgState :=
  makeMugshotBg renderCase id bgStateInit 1 1

/-- Second backdrop call, at the different size `(2, 2)`. -/
def bgCall2 : (ℕ → ℕ → ℚ) × BgState :=
  makeMugshotBg renderCase id bgCall1.2 2 2

/-- Third backdrop call, back at the original size `(1, 1)`. -/
def bgCall3 : (ℕ → ℕ → ℚ) × BgState :=
  makeMugshotBg renderCase id bgCall2.2 1 1

theorem truncQ_eval {q : ℚ} {z : ℤ} (h0 : 0 ≤ q) (h1 : (z : ℚ) ≤ q)
    (h2 : q < z + 1) : truncQ q = z := by
  unfold truncQ
  rw [if_pos h0, Int.floor_eq_iff]
  exact ⟨h1, by exact_mod_cast h2⟩

theorem truncQ_nonpos {q : ℚ} (hq : q ≤ 0) : truncQ q ≤ 0 := by
  unfold truncQ
  split
  · exact Int.floor_nonpos hq
  · have : (0 : ℤ) ≤ ⌊-q⌋ := Int.floor_nonneg.mpr (by linarith)
    omega

theorem bodyRect_width (h w : ℕ) (x1 y1 x2 y2 : ℤ) :
    (bodyRect h w (x1, y1, x2, y2)).2.2.1 =
      min (w : ℤ) (x2 + truncQ (((x2 - x1 : ℤ) : ℚ) * (9 / 5))) -
        max 0 (x1 - truncQ (((x2 - x1 : ℤ) : ℚ) * (9 / 5))) := rfl

theorem bodyRect_height (h w : ℕ) (x1 y1 x2 y2 : ℤ) :
    (bodyRect h w (x1, y1, x2, y2)).2.2.2 =
      min (h : ℤ) (y2 + truncQ (((y2 - y1 : ℤ) : ℚ) * (13 / 2))) -
        max 0 (y1 - truncQ (((y2 - y1 : ℤ) : ℚ) * (1 / 2))) := rfl

/-- C8: for every image, effect id, and strength, `MorphEngine.apply` with
null (absent) landmarks returns a byte-identical copy of the input image
with no effect applied. -/
theorem applyEffect_none_is_identity (O : CVOracles) (h w : ℕ)
    (img : ℕ → ℕ → ℝ) (effectName : String) (s : ℝ) :
    applyEffect O h w img none effectName s = img := rfl

/-- C10 (amended): once the backdrop generator has rendered a backdrop for
`(w, h)`, every subsequent same-size call made before any different-size
call returns exactly the same image and leaves the cache state unchanged —
the random case identifier is not redrawn on a cache hit. -/
theorem makeMugshotBg_repeat_stable (render : ℕ → ℕ → ℕ → (ℕ → ℕ → ℚ))
    (rng : ℕ → ℕ) (st : BgState) (w h : ℕ) (n : ℕ) :
    (fun p : (ℕ → ℕ → ℚ) × BgState => makeMugshotBg render rng p.2 w h)^[n]
        (makeMugshotBg render rng st w h) =
      makeMugshotBg render rng st w h := by
  have hstep : makeMugshotBg render rng (makeMugshotBg render rng st w h).2 w h =
      makeMugshotBg render rng st w h := by
    obtain ⟨cb, cs, seed⟩ := st
    match cb, cs with
    | some bg, some sz =>
      by_cases hsz : sz = (w, h)
      · simp [makeMugshotBg, hsz]
      · simp [makeMugshotBg, hsz]
    | some bg, none => simp [makeMugshotBg]
    | none, some sz => simp [makeMugshotBg]
    | none, none => simp [makeMugshotBg]
  exact Function.iterate_fixed hstep n

/-- C10 counterexample: calling the generator at `(1,1)`, then `(2,2)`, then
`(1,1)` again makes the third call differ pixelwise from the first — the
single-slot cache was invalidated by the intervening size, so the case
number was redrawn.  The claim's "every subsequent call with the same
(width, height)" is therefore false without a no-intervening-size proviso. -/
theorem makeMugshotBg_interleaved_cex :
    bgCall3.1 0 0 ≠ bgCall1.1 0 0 := by
  have h1 : bgCall1 = (renderCase 1 1 0, ⟨some (renderCase 1 1 0), some (1, 1), 1⟩) := by
    simp [bgCall1, makeMugshotBg, bgStateInit]
  have h2 : bgCall2 = (renderCase 2 2 1, ⟨some (renderCase 2 2 1), some (2, 2), 2⟩) := by
    norm_num [bgCall2, makeMugshotBg, h1, Prod.ext_iff]
  have h3 : bgCall3 = (renderCase 1 1 2, ⟨some (renderCase 1 1 2), some (1, 1), 3⟩) := by
    norm_num [bgCall3, makeMugshotBg, h2, Prod.ext_iff]
  rw [h1, h3]
  simp [renderCase]

/-- C3 (amended): `_segment_person` returns the all-ones whole-frame mask
whenever the derived body rectangle covers fewer than 2px in either
dimension; in particular for every face bbox of zero or negative width or
height.  (A bbox covering exactly one pixel in a dimension does not trigger
this guard — see the counterexample.) -/
theorem segmentPerson_degenerate_allOnes (O : SegOracles) (h w : ℕ)
    (x1 y1 x2 y2 : ℤ) (hdeg : x2 ≤ x1 ∨ y2 ≤ y1) :
    ∀ y x, (segmentPerson O h w (x1, y1, x2, y2)).val y x = 1 := by
  intro y x
  have key : (bodyRect h w (x1, y1, x2, y2)).2.2.1 < 2 ∨
      (bodyRect h w (x1, y1, x2, y2)).2.2.2 < 2 := by
    rcases hdeg with hc | hc
    · left
      rw [bodyRect_width]
      have hfw : ((x2 - x1 : ℤ) : ℚ) ≤ 0 := by
        have : x2 - x1 ≤ 0 := by omega
        exact_mod_cast this
      have ht : truncQ (((x2 - x1 : ℤ) : ℚ) * (9 / 5)) ≤ 0 :=
        truncQ_nonpos (by nlinarith)
      have h1 : min (w : ℤ) (x2 + truncQ (((x2 - x1 : ℤ) : ℚ) * (9 / 5))) ≤
          x2 + truncQ (((x2 - x1 : ℤ) : ℚ) * (9 / 5)) := min_le_right _ _
      have h2 : x1 - truncQ (((x2 - x1 : ℤ) : ℚ) * (9 / 5)) ≤
          max 0 (x1 - truncQ (((x2 - x1 : ℤ) : ℚ) * (9 / 5))) := le_max_right _ _
      omega
    · right
      rw [bodyRect_height]
      have hfh : ((y2 - y1 : ℤ) : ℚ) ≤ 0 := by
        have : y2 - y1 ≤ 0 := by omega
        exact_mod_cast this
      have ht1 : truncQ (((y2 - y1 : ℤ) : ℚ) * (1 / 2)) ≤ 0 :=
        truncQ_nonpos (by nlinarith)
      have ht2 : truncQ (((y2 - y1 : ℤ) : ℚ) * (13 / 2)) ≤ 0 :=
        truncQ_nonpos (by nlinarith)
      have h1 : min (h : ℤ) (y2 + truncQ (((y2 - y1 : ℤ) : ℚ) * (13 / 2))) ≤
          y2 + truncQ (((y2 - y1 : ℤ) : ℚ) * (13 / 2)) := min_le_right _ _
      have h2 : y1 - truncQ (((y2 - y1 : ℤ) : ℚ) * (1 / 2)) ≤
          max 0 (y1 - truncQ (((y2 - y1 : ℤ) : ℚ) * (1 / 2))) := le_max_right _ _
      omega
  unfold segmentPerson
  rw [if_pos key]

/-- C3 witness: a bbox of zero width on a 200×200 frame yields the all-ones
mask at an arbitrary pixel. -/
theorem segmentPerson_degenerate_allOnes_witness :
    (segmentPerson segOracleZero 200 200 (5, 5, 5, 9)).val 3 7 = 1 :=
  segmentPerson_degenerate_allOnes segOracleZero 200 200 5 5 5 9
    (Or.inl (by omega)) 3 7

/-- C3 counterexample: the face bbox `(10, 10, 11, 50)` covers exactly one
pixel column (width `1 < 2`), yet `_segment_person` does not return the
all-ones mask: the derived body rectangle is 3px wide, so the guard is not
taken and the segmentation pipeline runs (here instantiated with oracles
under which the mask is zero at the origin). -/
theorem segmentPerson_one_px_cex :
    ((11 : ℤ) - 10 < 2) ∧
      (segmentPerson segOracleZero 200 200 (10, 10, 11, 50)).val 0 0 ≠ 1 := by
  have ht1 : truncQ (((11 - 10 : ℤ) : ℚ) * (9 / 5)) = 1 := by
    apply truncQ_eval <;> norm_num
  have ht2 : truncQ (((50 - 10 : ℤ) : ℚ) * (13 / 2)) = 260 := by
    apply truncQ_eval <;> norm_num
  have ht3 : truncQ (((50 - 10 : ℤ) : ℚ) * (1 / 2)) = 20 := by
    apply truncQ_eval <;> norm_num
  have hwidth : (bodyRect 200 200 (10, 10, 11, 50)).2.2.1 = 3 := by
    rw [bodyRect_width, ht1]; norm_num
  have hheight : (bodyRect 200 200 (10, 10, 11, 50)).2.2.2 = 200 := by
    rw [bodyRect_height, ht2, ht3]; norm_num
  refine ⟨by omega, ?_⟩
  unfold segmentPerson
  rw [if_neg (by rw [hwidth, hheight]; omega)]
  have hkeep : keepLargestBlob (∅ : Finset (ℕ × ℕ)) = ∅ := by
    unfold keepLargestBlob
    exact Finset.filter_empty _
  show clipQ 0 1
      ((if ((0 : ℕ), (0 : ℕ)) ∈ keepLargestBlob (∅ : Finset (ℕ × ℕ)) then (1 : ℚ) else 0) *
        (14 / 10)) ≠ 1
  rw [hkeep]
  norm_num [clipQ]

/-- C4: for every image, face bbox and library behaviour, `_segment_person`
returns a mask whose dimensions equal the image's and all of whose values
lie in `[0, 1]`. -/
theorem segmentPerson_shape_and_range (O : SegOracles) (h w : ℕ)
    (bbox : ℤ × ℤ × ℤ × ℤ) :
    (segmentPerson O h w bbox).h = h ∧ (segmentPerson O h w bbox).w = w ∧
      ∀ y x, 0 ≤ (segmentPerson O h w bbox).val y x ∧
        (segmentPerson O h w bbox).val y x ≤ 1 := by
  unfold segmentPerson
  split
  · exact ⟨rfl, rfl, fun y x => ⟨by norm_num, by norm_num⟩⟩
  · refine ⟨rfl, rfl, fun y x => ⟨le_max_left _ _, ?_⟩⟩
    exact max_le (by norm_num) (min_le_left _ _)

theorem reflectIdx_of_lt {n : ℕ} {i : ℤ} (h0 : 0 ≤ i) (hn : i < n) :
    reflectIdx n i = i.toNat := by
  have hnpos : 0 < n := by
    rcases Nat.eq_zero_or_pos n with h | h
    · exfalso; rw [h] at hn; omega
    · exact h
  unfold reflectIdx
  have hne : n ≠ 0 := Nat.pos_iff_ne_zero.mp hnpos
  simp only [hne, if_false]
  have hlt2 : i < 2 * (n : ℤ) := by
    have : (n : ℤ) ≤ 2 * n := by omega
    omega
  have hmod : i % (2 * (n : ℤ)) = i := Int.emod_eq_of_lt h0 hlt2
  simp only [hmod]
  rw [if_pos hn]

theorem bilinearReflect_int (h w : ℕ) (img : ℕ → ℕ → ℝ) (y x : ℕ)
    (hy : y < h) (hx : x < w) :
    bilinearReflect h w img ((x : ℝ), (y : ℝ)) = img y x := by
  unfold bilinearReflect
  have hfx : ⌊((x : ℕ) : ℝ)⌋ = (x : ℤ) := by
    rw [Int.floor_natCast]
  have hfy : ⌊((y : ℕ) : ℝ)⌋ = (y : ℤ) := by
    rw [Int.floor_natCast]
  simp only [hfx, hfy]
  have hx' : reflectIdx w (x : ℤ) = x := by
    rw [reflectIdx_of_lt (by positivity) (by exact_mod_cast hx)]
    simp
  have hy' : reflectIdx h (y : ℤ) = y := by
    rw [reflectIdx_of_lt (by positivity) (by exact_mod_cast hy)]
    simp
  push_cast
  ring_nf
  simp [hx', hy']

/-- C2: applying the squeeze effect at strength 0 returns an output
pixel-identical to the input image — both per-pixel scale factors are
exactly 1, the displacement field is the identity, and bilinear resampling
at integer coordinates reproduces the source sample. -/
theorem squeeze_strength_zero_identity (h w : ℕ) (img : ℕ → ℕ → ℝ)
    (lm : Landmarks) (y x : ℕ) (hy : y < h) (hx : x < w) :
    squeeze h w img lm 0 y x = img y x := by
  have hmap : squeezeMap lm 0 y x = ((x : ℝ), (y : ℝ)) := by
    simp only [squeezeMap]
    split
    · simp only [Prod.mk.injEq]
      constructor <;> ring
    · rfl
  unfold squeeze
  rw [hmap]
  exact bilinearReflect_int h w img y x hy hx

/-- C2 witness: the strength-0 squeeze on a concrete 4×4 image with concrete
landmarks leaves the pixel `(3, 2)` unchanged. -/
theorem squeeze_strength_zero_identity_witness :
    squeeze 4 4 imgZeroR lmSmall 0 2 3 = imgZeroR 2 3 :=
  squeeze_strength_zero_identity 4 4 imgZeroR lmSmall 2 3 (by norm_num) (by norm_num)

/-- C5 (amended): for every nonnegative strength the cartoon effect applies
exactly `max(1, trunc(2*strength))` bilateral-smoothing passes — truncation
(floor for nonnegative input), not rounding, of `2*strength`. -/
theorem cartoon_pass_count (O : CVOracles) (s : ℝ) (img : ℕ → ℕ → ℝ)
    (hs : 0 ≤ s) :
    cartoon O s img =
      O.andMask
        ((fun im => O.bilateral 9 (truncR (75 * s)) (truncR (75 * s)) im)^[(max 1 ⌊(2 * s : ℝ)⌋).toNat]
          img)
        (O.adaptiveThresh (truncR (2 + s * 3)) (O.medianBlur7 (O.toGray img))) := by
  unfold cartoon cartoonPasses
  have hfl : truncR (s * 2) = ⌊(2 * s : ℝ)⌋ := by
    unfold truncR
    rw [if_pos (mul_nonneg hs (by norm_num)), mul_comm s 2]
  rw [hfl]

/-- C5 witness: at strength `9/10` with concrete oracles the equation of
`cartoon_pass_count` holds. -/
theorem cartoon_pass_count_witness :
    cartoon cartOracle (9 / 10 : ℝ) imgZeroR =
      cartOracle.andMask
        ((fun im =>
            cartOracle.bilateral 9 (truncR (75 * (9 / 10 : ℝ))) (truncR (75 * (9 / 10 : ℝ)))
              im)^[(max 1 ⌊(2 * (9 / 10 : ℝ) : ℝ)⌋).toNat]
          imgZeroR)
        (cartOracle.adaptiveThresh (truncR (2 + (9 / 10 : ℝ) * 3))
          (cartOracle.medianBlur7 (cartOracle.toGray imgZeroR))) :=
  cartoon_pass_count cartOracle (9 / 10) imgZeroR (by norm_num)

/-- C5 counterexample: at strength 0.9 the code computes
`max(1, int(0.9*2)) = 1` smoothing pass (the concrete oracle makes each
pass observable by adding 1 to every sample, so the cartoon output is 1 at
the origin), whereas the claimed formula `max(1, round(2*strength)) = 2`
would produce 2 — the claim's `round` disagrees with the code's truncating
`int` cast. -/
theorem cartoon_round_passes_cex :
    cartoon cartOracle (9 / 10 : ℝ) imgZeroR 0 0 = 1 ∧
      (max 1 (round ((2 : ℝ) * (9 / 10)))).toNat = 2 ∧
      ((fun im : ℕ → ℕ → ℝ =>
          cartOracle.bilateral 9 (truncR (75 * (9 / 10 : ℝ))) (truncR (75 * (9 / 10 : ℝ)))
            im)^[2] imgZeroR) 0 0 = 2 := by
  refine ⟨?_, ?_, ?_⟩
  · have hfl : truncR ((9 / 10 : ℝ) * 2) = 1 := by
      unfold truncR
      rw [if_pos (by norm_num)]
      rw [Int.floor_eq_iff]; norm_num
    unfold cartoon cartoonPasses
    rw [hfl]
    simp [cartOracle, imgZeroR]
  · have hr : round ((2 : ℝ) * (9 / 10)) = 2 := by
      rw [round_eq, show (2 : ℝ) * (9 / 10) + 1 / 2 = 23 / 10 by norm_num]
      rw [Int.floor_eq_iff]; norm_num
    rw [hr]
    decide
  · simp [cartOracle, imgZeroR, Function.iterate_succ_apply']
    norm_num

/-- C6: the compositor is a convex combination per pixel — the per-pixel
formula is `clip(subject*mask + backdrop*(1-mask), 0, 255)`, a mask
identically 1 reproduces the subject modulo the vignette, and a mask
identically 0 reproduces the backdrop modulo the vignette. -/
theorem composite_convex_combo (h w : ℕ) (img bg : ℕ → ℕ → ℤ) (m : ℕ → ℕ → ℚ)
    (hi : ∀ y x, 0 ≤ img y x ∧ img y x ≤ 255)
    (hb : ∀ y x, 0 ≤ bg y x ∧ bg y x ≤ 255) :
    (∀ y x, compositePre img bg m y x =
        ⌊clipQ 0 255 ((img y x : ℚ) * m y x + (bg y x : ℚ) * (1 - m y x))⌋) ∧
      ((∀ y x, m y x = 1) → bgComposite h w img bg m = addVignette h w img) ∧
      ((∀ y x, m y x = 0) → bgComposite h w img bg m = addVignette h w bg) := by
  refine ⟨fun y x => rfl, ?_, ?_⟩
  · intro hm
    have hcp : compositePre img bg m = img := by
      funext y x
      unfold compositePre
      rw [hm]
      rw [show (img y x : ℚ) * 1 + (bg y x : ℚ) * (1 - 1) = (img y x : ℚ) by ring]
      have hcl : clipQ 0 255 ((img y x : ℚ)) = (img y x : ℚ) := by
        unfold clipQ
        rw [min_eq_right (by exact_mod_cast (hi y x).2),
          max_eq_right (by exact_mod_cast (hi y x).1)]
      rw [hcl, Int.floor_intCast]
    unfold bgComposite
    rw [hcp]
  · intro hm
    have hcp : compositePre img bg m = bg := by
      funext y x
      unfold compositePre
      rw [hm]
      rw [show (img y x : ℚ) * 0 + (bg y x : ℚ) * (1 - 0) = (bg y x : ℚ) by ring]
      have hcl : clipQ 0 255 ((bg y x : ℚ)) = (bg y x : ℚ) := by
        unfold clipQ
        rw [min_eq_right (by exact_mod_cast (hb y x).2),
          max_eq_right (by exact_mod_cast (hb y x).1)]
      rw [hcl, Int.floor_intCast]
    unfold bgComposite
    rw [hcp]

/-- C6 witness: with a constant subject 10, constant backdrop 200 and mask
identically 1, the composite equals the vignetted subject. -/
theorem composite_convex_combo_witness :
    bgComposite 2 2 (fun _ _ => 10) (fun _ _ => 200) (fun _ _ => 1) =
      addVignette 2 2 (fun _ _ => 10) :=
  (composite_convex_combo 2 2 (fun _ _ => 10) (fun _ _ => 200) (fun _ _ => 1)
      (fun _ _ => ⟨by norm_num, by norm_num⟩)
      (fun _ _ => ⟨by norm_num, by norm_num⟩)).2.1
    (fun _ _ => rfl)

theorem applyEyeBulge_outside (h w : ℕ) (img : ℕ → ℕ → ℝ) (pts : Fin 6 → ℤ × ℤ)
    (s : ℝ) (y x : ℕ) (hout : inRectB (eyeRect h w pts) y x = false) :
    applyEyeBulge h w img pts s y x = img y x := by
  unfold applyEyeBulge
  by_cases hrad : eyeRadiusOf pts < 5
  · rw [if_pos hrad]
  · rw [if_neg hrad]
    simp only [hout, Bool.false_eq_true, if_false]

/-- C9: the local-region effects leave every pixel outside their own
clamped rectangular sub-regions unchanged from the input — big_eyes leaves
every pixel outside the two padded eye regions untouched (whatever the
mouth region is), and wide_smile leaves every pixel outside the padded
mouth region untouched (whatever the eye regions are). -/
theorem local_effects_outside_unchanged (h w : ℕ) (img : ℕ → ℕ → ℝ)
    (lm : Landmarks) (s : ℝ) (y x : ℕ) :
    (inRectB (eyeRect h w (rightEyePts lm)) y x = false →
      inRectB (eyeRect h w (leftEyePts lm)) y x = false →
      bigEyes h w img lm s y x = img y x) ∧
      (inRectB (mouthRect h w lm) y x = false →
        wideSmile h w img lm s y x = img y x) := by
  constructor
  · intro hR hL
    unfold bigEyes
    rw [applyEyeBulge_outside h w _ (leftEyePts lm) s y x hL,
      applyEyeBulge_outside h w img (rightEyePts lm) s y x hR]
  · intro hM
    unfold wideSmile
    by_cases hrad : mouthRadiusOf lm < 10
    · rw [if_pos hrad]
    · rw [if_neg hrad]
      simp only [hM, Bool.false_eq_true, if_false]

/-- C9 witness: for a concrete landmark set clustered near `(100, 100)` on a
200×200 image, the corner pixel `(0, 0)` lies outside all three clamped
regions and is left unchanged by both local effects. -/
theorem local_effects_outside_unchanged_witness :
    bigEyes 200 200 imgZeroR lmSmall 1 0 0 = imgZeroR 0 0 ∧
      wideSmile 200 200 imgZeroR lmSmall 1 0 0 = imgZeroR 0 0 := by
  have hcR : meanPt 6 (rightEyePts lmSmall) = (101, 100) := by
    have h1 : (∑ i, (rightEyePts lmSmall i).1) = 606 := by decide
    have h2 : (∑ i, (rightEyePts lmSmall i).2) = 603 := by decide
    unfold meanPt
    rw [h1, h2]
    simp only [Prod.mk.injEq]
    exact ⟨truncQ_eval (by norm_num) (by norm_num) (by norm_num),
      truncQ_eval (by norm_num) (by norm_num) (by norm_num)⟩
  have hcL : meanPt 6 (leftEyePts lmSmall) = (101, 100) := by
    have h1 : (∑ i, (leftEyePts lmSmall i).1) = 606 := by decide
    have h2 : (∑ i, (leftEyePts lmSmall i).2) = 603 := by decide
    unfold meanPt
    rw [h1, h2]
    simp only [Prod.mk.injEq]
    exact ⟨truncQ_eval (by norm_num) (by norm_num) (by norm_num),
      truncQ_eval (by norm_num) (by norm_num) (by norm_num)⟩
  have hcM : meanPt 20 (mouthPts lmSmall) = (100, 100) := by
    have h1 : (∑ i, (mouthPts lmSmall i).1) = 2019 := by decide
    have h2 : (∑ i, (mouthPts lmSmall i).2) = 2010 := by decide
    unfold meanPt
    rw [h1, h2]
    simp only [Prod.mk.injEq]
    exact ⟨truncQ_eval (by norm_num) (by norm_num) (by norm_num),
      truncQ_eval (by norm_num) (by norm_num) (by norm_num)⟩
  have hrR : eyeRadiusOf (rightEyePts lmSmall) = 3 := by
    have hx : spreadX 6 (rightEyePts lmSmall) = 2 := by decide
    have hy : spreadY 6 (rightEyePts lmSmall) = 1 := by decide
    unfold eyeRadiusOf
    rw [hx, hy]
    rw [show max (2 : ℤ) 1 = 2 by decide]
    exact truncQ_eval (by norm_num) (by norm_num) (by norm_num)
  have hrL : eyeRadiusOf (leftEyePts lmSmall) = 3 := by
    have hx : spreadX 6 (leftEyePts lmSmall) = 2 := by decide
    have hy : spreadY 6 (leftEyePts lmSmall) = 1 := by decide
    unfold eyeRadiusOf
    rw [hx, hy]
    rw [show max (2 : ℤ) 1 = 2 by decide]
    exact truncQ_eval (by norm_num) (by norm_num) (by norm_num)
  have hrM : mouthRadiusOf lmSmall = 3 := by
    have hx : spreadX 20 (mouthPts lmSmall) = 2 := by decide
    have hy : spreadY 20 (mouthPts lmSmall) = 1 := by decide
    unfold mouthRadiusOf
    rw [hx, hy]
    rw [show max (2 : ℤ) 1 = 2 by decide]
    exact truncQ_eval (by norm_num) (by norm_num) (by norm_num)
  have hR : inRectB (eyeRect 200 200 (rightEyePts lmSmall)) 0 0 = false := by
    unfold eyeRect
    rw [hcR, hrR]
    decide
  have hL : inRectB (eyeRect 200 200 (leftEyePts lmSmall)) 0 0 = false := by
    unfold eyeRect
    rw [hcL, hrL]
    decide
  have hM : inRectB (mouthRect 200 200 lmSmall) 0 0 = false := by
    unfold mouthRect
    rw [hcM, hrM]
    decide
  exact ⟨(local_effects_outside_unchanged 200 200 imgZeroR lmSmall 1 0 0).1 hR hL,
    (local_effects_outside_unchanged 200 200 imgZeroR lmSmall 1 0 0).2 hM⟩

theorem adj8_symm {p q : ℕ × ℕ} (h : adj8 p q) : adj8 q p := by
  obtain ⟨hne, h1, h2⟩ := h
  refine ⟨hne.symm, ?_, ?_⟩ <;> omega

theorem grow_subset (F S : Finset (ℕ × ℕ)) : grow F S ⊆ F :=
  Finset.filter_subset _ _

theorem subset_grow {F S : Finset (ℕ × ℕ)} (h : S ⊆ F) : S ⊆ grow F S := by
  intro q hq
  exact Finset.mem_filter.mpr ⟨h hq, Or.inl hq⟩

theorem grow_mono_left {F₁ F₂ S : Finset (ℕ × ℕ)} (h : F₁ ⊆ F₂) :
    grow F₁ S ⊆ grow F₂ S := by
  intro q hq
  rw [grow, Finset.mem_filter] at hq ⊢
  exact ⟨h hq.1, hq.2⟩

theorem grow_mono_right {F S T : Finset (ℕ × ℕ)} (h : S ⊆ T) :
    grow F S ⊆ grow F T := by
  intro q hq
  rw [grow, Finset.mem_filter] at hq ⊢
  refine ⟨hq.1, ?_⟩
  rcases hq.2 with h1 | ⟨r, hr, hadj⟩
  · exact Or.inl (h h1)
  · exact Or.inr ⟨r, h hr, hadj⟩

theorem grow_iterate_subset_F {F S : Finset (ℕ × ℕ)} (h : S ⊆ F) (n : ℕ) :
    (grow F)^[n] S ⊆ F := by
  induction n with
  | zero => exact h
  | succ n _ =>
    rw [Function.iterate_succ_apply']
    exact grow_subset F _

theorem grow_iterate_mono_step {F S : Finset (ℕ × ℕ)} (h : S ⊆ F) (n : ℕ) :
    (grow F)^[n] S ⊆ (grow F)^[n + 1] S := by
  induction n with
  | zero => exact subset_grow h
  | succ n ih =>
    rw [Function.iterate_succ_apply', Function.iterate_succ_apply']
    exact grow_mono_right ih

theorem grow_iterate_le {F S : Finset (ℕ × ℕ)} (h : S ⊆ F) {m n : ℕ}
    (hmn : m ≤ n) : (grow F)^[m] S ⊆ (grow F)^[n] S := by
  induction n with
  | zero =>
    rw [Nat.le_zero.mp hmn]
  | succ n ih =>
    rcases Nat.lt_or_ge m (n + 1) with hlt | hge
    · exact (ih (by omega)).trans (grow_iterate_mono_step h n)
    · rw [show m = n + 1 by omega]

theorem grow_iterate_card_ge {F S : Finset (ℕ × ℕ)} (hS : S ⊆ F) (n : ℕ)
    (hstrict : ∀ k < n, (grow F)^[k + 1] S ≠ (grow F)^[k] S) :
    n + S.card ≤ ((grow F)^[n] S).card := by
  induction n with
  | zero => simp
  | succ n ih =>
    have h1 : n + S.card ≤ ((grow F)^[n] S).card :=
      ih fun k hk => hstrict k (by omega)
    have h2 : (grow F)^[n] S ⊂ (grow F)^[n + 1] S :=
      Finset.ssubset_iff_subset_ne.mpr
        ⟨grow_iterate_mono_step hS n, fun he => hstrict n (by omega) he.symm⟩
    have h3 := Finset.card_lt_card h2
    omega

theorem comp_fixed {F : Finset (ℕ × ℕ)} {p : ℕ × ℕ} (hp : p ∈ F) :
    grow F (comp F p) = comp F p := by
  have hpF : ({p} : Finset (ℕ × ℕ)) ⊆ F := Finset.singleton_subset_iff.mpr hp
  by_cases hall : ∀ k < F.card, (grow F)^[k + 1] ({p} : Finset (ℕ × ℕ)) ≠ (grow F)^[k] ({p} : Finset (ℕ × ℕ))
  · exfalso
    have hcard := grow_iterate_card_ge hpF F.card hall
    have hsub := grow_iterate_subset_F hpF F.card
    have hle := Finset.card_le_card hsub
    simp only [Finset.card_singleton] at hcard
    omega
  · push_neg at hall
    obtain ⟨k, hk, heq⟩ := hall
    have hfix : ∀ j, (grow F)^[k + j] ({p} : Finset (ℕ × ℕ)) = (grow F)^[k] ({p} : Finset (ℕ × ℕ)) := by
      intro j
      induction j with
      | zero => rfl
      | succ j ih =>
        rw [show k + (j + 1) = (k + j) + 1 by omega, Function.iterate_succ_apply', ih]
        calc grow F ((grow F)^[k] ({p} : Finset (ℕ × ℕ)))
            = (grow F)^[k + 1] ({p} : Finset (ℕ × ℕ)) :=
              (Function.iterate_succ_apply' _ _ _).symm
          _ = (grow F)^[k] ({p} : Finset (ℕ × ℕ)) := heq
    unfold comp
    have h1 : (grow F)^[F.card] ({p} : Finset (ℕ × ℕ)) = (grow F)^[k] ({p} : Finset (ℕ × ℕ)) := by
      have h2 := hfix (F.card - k)
      rwa [show k + (F.card - k) = F.card by omega] at h2
    rw [h1]
    calc grow F ((grow F)^[k] ({p} : Finset (ℕ × ℕ)))
        = (grow F)^[k + 1] ({p} : Finset (ℕ × ℕ)) :=
          (Function.iterate_succ_apply' _ _ _).symm
      _ = (grow F)^[k] ({p} : Finset (ℕ × ℕ)) := heq

theorem comp_subset_closed {F P : Finset (ℕ × ℕ)} {p : ℕ × ℕ} (hp : p ∈ P)
    (hclosed : ∀ q ∈ F, ∀ r ∈ P, adj8 q r → q ∈ P) : comp F p ⊆ P := by
  have key : ∀ n, (grow F)^[n] ({p} : Finset (ℕ × ℕ)) ⊆ P := by
    intro n
    induction n with
    | zero => simpa using hp
    | succ n ih =>
      rw [Function.iterate_succ_apply']
      intro q hq
      rw [grow, Finset.mem_filter] at hq
      obtain ⟨hqF, hcond⟩ := hq
      rcases hcond with h | ⟨r, hr, hadj⟩
      · exact ih h
      · exact hclosed q hqF r (ih hr) hadj
  exact key F.card

theorem comp_of_subset {F P : Finset (ℕ × ℕ)} {p : ℕ × ℕ} (hPF : P ⊆ F)
    (hp : p ∈ P) : comp P p ⊆ comp F p := by
  have hpP : ({p} : Finset (ℕ × ℕ)) ⊆ P := Finset.singleton_subset_iff.mpr hp
  have hpF : ({p} : Finset (ℕ × ℕ)) ⊆ F := hpP.trans hPF
  have step1 : ∀ n, (grow P)^[n] ({p} : Finset (ℕ × ℕ)) ⊆ (grow F)^[n] ({p} : Finset (ℕ × ℕ)) := by
    intro n
    induction n with
    | zero => exact Finset.Subset.refl _
    | succ n ih =>
      rw [Function.iterate_succ_apply', Function.iterate_succ_apply']
      exact (grow_mono_left hPF).trans (grow_mono_right ih)
  calc comp P p = (grow P)^[P.card] ({p} : Finset (ℕ × ℕ)) := rfl
    _ ⊆ (grow F)^[P.card] ({p} : Finset (ℕ × ℕ)) := step1 P.card
    _ ⊆ (grow F)^[F.card] ({p} : Finset (ℕ × ℕ)) :=
      grow_iterate_le hpF (Finset.card_le_card hPF)
    _ = comp F p := rfl

theorem comp_eq_of_separated {P Q : Finset (ℕ × ℕ)} {p : ℕ × ℕ}
    (hp : p ∈ P) (hP : IsConn P)
    (hsep : ∀ a ∈ P, ∀ b ∈ Q, ¬adj8 a b) :
    comp (P ∪ Q) p = P := by
  apply Finset.Subset.antisymm
  · apply comp_subset_closed hp
    intro q hq r hr hadj
    rcases Finset.mem_union.mp hq with h | h
    · exact h
    · exact absurd (adj8_symm hadj) (hsep r hr q h)
  · calc P = comp P p := (hP p hp).symm
      _ ⊆ comp (P ∪ Q) p := comp_of_subset Finset.subset_union_left hp

/-- C7: for a binary mask whose foreground consists of exactly two disjoint,
mutually non-adjacent 8-connected blobs of areas `A > B`, the
largest-connected-component selection keeps exactly the `A`-area blob and
sets everything else to background. -/
theorem keepLargestBlob_two_blobs (F P Q : Finset (ℕ × ℕ))
    (hU : F = P ∪ Q) (_hdisj : Disjoint P Q)
    (hP : IsConn P) (hQ : IsConn Q)
    (hsep : ∀ a ∈ P, ∀ b ∈ Q, ¬adj8 a b)
    (hcard : Q.card < P.card) :
    keepLargestBlob F = P := by
  subst hU
  have hcompP : ∀ a ∈ P, comp (P ∪ Q) a = P := fun a ha =>
    comp_eq_of_separated ha hP hsep
  have hcompQ : ∀ b ∈ Q, comp (P ∪ Q) b = Q := by
    intro b hb
    have h := comp_eq_of_separated hb hQ
      (fun a ha c hc hadj => hsep c hc a ha (adj8_symm hadj))
    rwa [Finset.union_comm] at h
  have hPne : P.Nonempty := by
    rw [← Finset.card_pos]
    omega
  obtain ⟨p₀, hp₀⟩ := hPne
  apply Finset.ext
  intro a
  simp only [keepLargestBlob, Finset.mem_filter]
  constructor
  · rintro ⟨ha, hmax⟩
    rcases Finset.mem_union.mp ha with h | h
    · exact h
    · exfalso
      have h1 := hmax p₀ (Finset.mem_union_left _ hp₀)
      rw [hcompP p₀ hp₀, hcompQ a h] at h1
      omega
  · intro ha
    refine ⟨Finset.mem_union_left _ ha, ?_⟩
    intro q hq
    rw [hcompP a ha]
    rcases Finset.mem_union.mp hq with h | h
    · rw [hcompP q h]
    · rw [hcompQ q h]
      omega

/-- C7 witness: a 3-cell L-shaped blob and a distant single-cell blob — only
the larger blob survives the selection. -/
theorem keepLargestBlob_two_blobs_witness :
    keepLargestBlob {(0, 0), (0, 1), (5, 5)} = ({(0, 0), (0, 1)} : Finset (ℕ × ℕ)) :=
  keepLargestBlob_two_blobs {(0, 0), (0, 1), (5, 5)} {(0, 0), (0, 1)} {(5, 5)}
    (by decide) (by decide) (by decide) (by decide) (by decide) (by decide)

theorem circLm_sum_x : (∑ i, (circLm i).1) = 6800 := by decide

theorem circLm_sum_y : (∑ i, (circLm i).2) = 6800 := by decide

theorem faceCenter_circ : faceCenter circLm = (100, 100) := by
  unfold faceCenter meanPt
  rw [circLm_sum_x, circLm_sum_y]
  simp only [Prod.mk.injEq]
  exact ⟨truncQ_eval (by norm_num) (by norm_num) (by norm_num),
    truncQ_eval (by norm_num) (by norm_num) (by norm_num)⟩

theorem jaw_sq_circ : ∀ i : Fin 17,
    ((jawPts circLm i).1 - 100) ^ 2 + ((jawPts circLm i).2 - 100) ^ 2 = (2500 : ℤ) := by
  decide

theorem jawMaxDist_circ : jawMaxDist circLm = 50 := by
  unfold jawMaxDist
  have hterm : ∀ i ∈ (Finset.univ : Finset (Fin 17)),
      Real.sqrt ((((jawPts circLm i).1 : ℝ) - (((faceCenter circLm).1 : ℤ) : ℝ)) ^ 2 +
        (((jawPts circLm i).2 : ℝ) - (((faceCenter circLm).2 : ℤ) : ℝ)) ^ 2) =
        (fun _ : Fin 17 => (50 : ℝ)) i := by
    intro i _
    have h := jaw_sq_circ i
    have hcast : (((jawPts circLm i).1 : ℝ) - (((faceCenter circLm).1 : ℤ) : ℝ)) ^ 2 +
        (((jawPts circLm i).2 : ℝ) - (((faceCenter circLm).2 : ℤ) : ℝ)) ^ 2 = (2500 : ℝ) := by
      rw [faceCenter_circ]
      exact_mod_cast h
    rw [hcast, show (2500 : ℝ) = 50 ^ 2 by norm_num,
      Real.sqrt_sq (by norm_num : (0 : ℝ) ≤ 50)]
  rw [Finset.sup'_congr Finset.univ_nonempty rfl hterm, Finset.sup'_const]

theorem faceRadius_circ : faceRadius circLm = 55 := by
  unfold faceRadius
  rw [jawMaxDist_circ]
  unfold truncR
  rw [if_pos (by norm_num), show (50 : ℝ) * 1.1 = ((55 : ℤ) : ℝ) by norm_num,
    Int.floor_intCast]

theorem bulgeMap_in_branch (lm : Landmarks) (s : ℝ) (y x : ℕ)
    (hlt : pixDist lm y x < ((faceRadius lm) : ℝ))
    (hpos : 0 < pixDist lm y x / ((faceRadius lm) : ℝ)) :
    bulgeMap lm s y x =
      ((((faceCenter lm).1 : ℤ) : ℝ) +
          ((x : ℝ) - (((faceCenter lm).1 : ℤ) : ℝ)) *
            ((pixDist lm y x / ((faceRadius lm) : ℝ)) ^ ((1 : ℝ) + s * 0.5) /
              (pixDist lm y x / ((faceRadius lm) : ℝ))),
        (((faceCenter lm).2 : ℤ) : ℝ) +
          ((y : ℝ) - (((faceCenter lm).2 : ℤ) : ℝ)) *
            ((pixDist lm y x / ((faceRadius lm) : ℝ)) ^ ((1 : ℝ) + s * 0.5) /
              (pixDist lm y x / ((faceRadius lm) : ℝ)))) := by
  have h1 : pixDist lm y x =
      Real.sqrt (((x : ℝ) - (((faceCenter lm).1 : ℤ) : ℝ)) ^ 2 +
        ((y : ℝ) - (((faceCenter lm).2 : ℤ) : ℝ)) ^ 2) := rfl
  rw [h1] at hlt hpos ⊢
  simp only [bulgeMap]
  rw [if_pos hlt, if_pos hpos]

theorem bulgeMap_out_branch (lm : Landmarks) (s : ℝ) (y x : ℕ)
    (hge : ¬(pixDist lm y x < ((faceRadius lm) : ℝ))) :
    bulgeMap lm s y x = ((x : ℝ), (y : ℝ)) := by
  have h1 : pixDist lm y x =
      Real.sqrt (((x : ℝ) - (((faceCenter lm).1 : ℤ) : ℝ)) ^ 2 +
        ((y : ℝ) - (((faceCenter lm).2 : ℤ) : ℝ)) ^ 2) := rfl
  rw [h1] at hge
  simp only [bulgeMap]
  rw [if_neg hge]

theorem sqrt_scaled_lt (c1 c2 dx dy sc : ℝ) (hsc0 : 0 ≤ sc) (hsc1 : sc < 1)
    (hd0 : 0 < Real.sqrt (dx ^ 2 + dy ^ 2)) :
    Real.sqrt ((c1 + dx * sc - c1) ^ 2 + (c2 + dy * sc - c2) ^ 2) <
      Real.sqrt (dx ^ 2 + dy ^ 2) := by
  have h1 : (c1 + dx * sc - c1) ^ 2 + (c2 + dy * sc - c2) ^ 2 =
      sc ^ 2 * (dx ^ 2 + dy ^ 2) := by ring
  rw [h1, Real.sqrt_mul (sq_nonneg sc), Real.sqrt_sq_eq_abs, abs_of_nonneg hsc0]
  exact mul_lt_of_lt_one_left hd0 hsc1

theorem scale_half_lt_one {nd : ℝ} (h0 : 0 < nd) (h1 : nd < 1) :
    nd ^ ((1 : ℝ) + 1 * 0.5) / nd < 1 := by
  have hmul : nd ^ ((1 : ℝ) / 2) * nd ^ (1 : ℝ) = nd ^ ((1 : ℝ) + 1 * 0.5) := by
    rw [← Real.rpow_add h0]
    norm_num
  have heq : nd ^ ((1 : ℝ) + 1 * 0.5) / nd = nd ^ ((1 : ℝ) / 2) := by
    rw [← hmul, Real.rpow_one]
    exact mul_div_cancel_right₀ _ (ne_of_gt h0)
  rw [heq]
  exact Real.rpow_lt_one (le_of_lt h0) h1 (by norm_num)

theorem bulge_src_closer (lm : Landmarks) (y x : ℕ)
    (h0 : 0 < pixDist lm y x) (hin : pixDist lm y x < ((faceRadius lm) : ℝ)) :
    bulgeSrcDist lm 1 y x < pixDist lm y x := by
  have hR : (0 : ℝ) < ((faceRadius lm) : ℝ) := lt_trans h0 hin
  have hnd : 0 < pixDist lm y x / ((faceRadius lm) : ℝ) := div_pos h0 hR
  have hnd1 : pixDist lm y x / ((faceRadius lm) : ℝ) < 1 := (div_lt_one hR).mpr hin
  have hmap := bulgeMap_in_branch lm 1 y x hin hnd
  have hsrc : bulgeSrcDist lm 1 y x =
      Real.sqrt (((bulgeMap lm 1 y x).1 - (((faceCenter lm).1 : ℤ) : ℝ)) ^ 2 +
        ((bulgeMap lm 1 y x).2 - (((faceCenter lm).2 : ℤ) : ℝ)) ^ 2) := rfl
  rw [hmap] at hsrc
  dsimp only at hsrc
  have hsc0 : 0 ≤ (pixDist lm y x / ((faceRadius lm) : ℝ)) ^ ((1 : ℝ) + 1 * 0.5) /
      (pixDist lm y x / ((faceRadius lm) : ℝ)) :=
    div_nonneg (Real.rpow_nonneg hnd.le _) hnd.le
  have hsc1 := scale_half_lt_one hnd hnd1
  rw [hsrc]
  have hd : pixDist lm y x =
      Real.sqrt (((x : ℝ) - (((faceCenter lm).1 : ℤ) : ℝ)) ^ 2 +
        ((y : ℝ) - (((faceCenter lm).2 : ℤ) : ℝ)) ^ 2) := rfl
  rw [hd] at h0 ⊢
  exact sqrt_scaled_lt _ _ _ _ _ hsc0 hsc1 h0

theorem pixDist_circ_border_ge (y x : ℕ)
    (hborder : x = 0 ∨ x = 199 ∨ y = 0 ∨ y = 199) :
    (99 : ℝ) ≤ pixDist circLm y x := by
  have hpix : pixDist circLm y x =
      Real.sqrt (((x : ℝ) - (((faceCenter circLm).1 : ℤ) : ℝ)) ^ 2 +
        ((y : ℝ) - (((faceCenter circLm).2 : ℤ) : ℝ)) ^ 2) := rfl
  have hc1 : (((faceCenter circLm).1 : ℤ) : ℝ) = 100 := by
    rw [faceCenter_circ]; norm_num
  have hc2 : (((faceCenter circLm).2 : ℤ) : ℝ) = 100 := by
    rw [faceCenter_circ]; norm_num
  rw [hpix, hc1, hc2]
  have hsq : (9801 : ℝ) ≤ ((x : ℝ) - 100) ^ 2 + ((y : ℝ) - 100) ^ 2 := by
    rcases hborder with h | h | h | h
    · subst h; push_cast; nlinarith [sq_nonneg ((y : ℝ) - 100)]
    · subst h; push_cast; nlinarith [sq_nonneg ((y : ℝ) - 100)]
    · subst h; push_cast; nlinarith [sq_nonneg ((x : ℝ) - 100)]
    · subst h; push_cast; nlinarith [sq_nonneg ((x : ℝ) - 100)]
  calc (99 : ℝ) = Real.sqrt 9801 := by
        rw [show (9801 : ℝ) = 99 ^ 2 by norm_num,
          Real.sqrt_sq (by norm_num : (0 : ℝ) ≤ 99)]
    _ ≤ _ := Real.sqrt_le_sqrt hsq

theorem pixDist_circ_130 : pixDist circLm 100 130 = 30 := by
  have hpix : pixDist circLm 100 130 =
      Real.sqrt ((((130 : ℕ) : ℝ) - (((faceCenter circLm).1 : ℤ) : ℝ)) ^ 2 +
        (((100 : ℕ) : ℝ) - (((faceCenter circLm).2 : ℤ) : ℝ)) ^ 2) := rfl
  have hc1 : (((faceCenter circLm).1 : ℤ) : ℝ) = 100 := by
    rw [faceCenter_circ]; norm_num
  have hc2 : (((faceCenter circLm).2 : ℤ) : ℝ) = 100 := by
    rw [faceCenter_circ]; norm_num
  rw [hpix, hc1, hc2]
  rw [show ((((130 : ℕ) : ℝ) - 100) ^ 2 + (((100 : ℕ) : ℝ) - 100) ^ 2) = 900 by
    push_cast; ring]
  rw [show (900 : ℝ) = 30 ^ 2 by norm_num, Real.sqrt_sq (by norm_num : (0 : ℝ) ≤ 30)]

/-- C1 (amended): in the 200×200 circle-landmark scenario at strength 1,
every pixel strictly inside radius 50 of the center other than the center
itself has its bilinear sample taken from source coordinates strictly
CLOSER to the center than the pixel's own coordinates (this inward sampling
is what displaces the image content outward, inflating the face), and every
image border pixel (outside the masked face radius 55) is unchanged. -/
theorem bulge_circle_scenario (img : ℕ → ℕ → ℝ) (y x : ℕ)
    (hy : y < 200) (hx : x < 200) :
    (0 < pixDist circLm y x → pixDist circLm y x < 50 →
      bulgeSrcDist circLm 1 y x < pixDist circLm y x) ∧
      (x = 0 ∨ x = 199 ∨ y = 0 ∨ y = 199 →
        bulge 200 200 img circLm 1 y x = img y x) := by
  constructor
  · intro h0 h50
    apply bulge_src_closer circLm y x h0
    rw [faceRadius_circ]
    calc pixDist circLm y x < 50 := h50
      _ < ((55 : ℤ) : ℝ) := by norm_num
  · intro hborder
    have hge : ¬(pixDist circLm y x < ((faceRadius circLm) : ℝ)) := by
      rw [faceRadius_circ]
      push_neg
      calc ((55 : ℤ) : ℝ) ≤ 99 := by norm_num
        _ ≤ pixDist circLm y x := pixDist_circ_border_ge y x hborder
    unfold bulge
    rw [bulgeMap_out_branch circLm 1 y x hge]
    exact bilinearReflect_int 200 200 img y x hy hx

/-- C1 counterexample: the pixel `(x, y) = (130, 100)` lies strictly inside
radius 50 of the center `(100, 100)` (its distance is 30), yet its bulge
source coordinate at strength 1 is NOT further from the center than the
pixel itself — it is strictly closer (the radial power law
`normDist^1.5 < normDist` contracts distances), refuting the claim's
"sampled from source coordinates further from the center". -/
theorem bulge_samples_not_further_cex :
    0 < pixDist circLm 100 130 ∧ pixDist circLm 100 130 < 50 ∧
      ¬(pixDist circLm 100 130 < bulgeSrcDist circLm 1 100 130) := by
  refine ⟨by rw [pixDist_circ_130]; norm_num, by rw [pixDist_circ_130]; norm_num, ?_⟩
  have h := bulge_src_closer circLm 100 130
    (by rw [pixDist_circ_130]; norm_num)
    (by rw [pixDist_circ_130, faceRadius_circ]; norm_num)
  exact not_lt.mpr (le_of_lt h)

/-- C1 witness: at the interior pixel `(130, 100)` the sample is strictly
closer to the center, and the border pixel `(0, 0)` is unchanged. -/
theorem bulge_circle_scenario_witness :
    bulgeSrcDist circLm 1 100 130 < pixDist circLm 100 130 ∧
      bulge 200 200 imgZeroR circLm 1 0 0 = imgZeroR 0 0 := by
  constructor
  · exact (bulge_circle_scenario imgZeroR 100 130 (by norm_num) (by norm_num)).1
      (by rw [pixDist_circ_130]; norm_num) (by rw [pixDist_circ_130]; norm_num)
  · exact (bulge_circle_scenario imgZeroR 0 0 (by norm_num) (by norm_num)).2
      (Or.inl rfl)
